import Mathlib

/-!
Shallow embedding of the trajectory batching engine and the parallel
evaluation loop of `experiment.py`, with theorems checking the
specification's claims against it.

Conventions: numpy float arrays are modelled as lists of rationals,
integer arrays as lists of integers, boolean arrays as lists of `Bool`.
Random draws (trajectory indices, window starts, environment outcomes)
are modelled as explicit inputs ranging over the support of the
corresponding distribution.
-/

namespace DecTransform

/- ## TrajectoryStore: return-to-go and the delayed-reward transform -/

/-- Embeds `discount_cumsum` (experiment.py lines 20-25): the output has the
same shape as the input, its last entry is the last reward, and it is filled
right-to-left by `out[t] = x[t] + gamma * out[t+1]`. -/
def discount_cumsum : List ℚ → ℚ → List ℚ
  | [], _ => []
  | [a], _ => [a]
  | a :: b :: rest, g =>
    let r := discount_cumsum (b :: rest) g
    (a + g * r.headD 0) :: r

/-- Embeds the `mode == 'delayed'` branch (experiment.py lines 90-92):
`rewards[-1] = rewards.sum()` followed by `rewards[:-1] = 0`, i.e. the whole
reward mass of the original sequence is moved onto the final step. -/
def delayedRewards (r : List ℚ) : List ℚ :=
  if r.isEmpty then r else List.replicate (r.length - 1) 0 ++ [r.sum]

theorem discount_cumsum_length (x : List ℚ) (g : ℚ) :
    (discount_cumsum x g).length = x.length := by
  induction x with
  | nil => rfl
  | cons a rest ih =>
    cases rest with
    | nil => rfl
    | cons b rest' => simp [discount_cumsum] at ih ⊢; omega

theorem discount_cumsum_head (a : List ℚ) (g : ℚ) (h : a ≠ []) :
    (discount_cumsum a g).headD 0 = (discount_cumsum a g).getD 0 0 := by
  cases a with
  | nil => exact absurd rfl h
  | cons y ys => cases ys <;> simp [discount_cumsum]

/-- Claim C4: for every nonempty reward sequence, `discount_cumsum` returns a
series of the same length with `out[L-1] = x[L-1]` and
`out[t] = x[t] + gamma * out[t+1]` for every `t < L-1`; for `gamma = 1` and
rewards `[1,2,3]` the result is `[6,5,3]`. -/
theorem C4_discount_cumsum_spec (x : List ℚ) (g : ℚ) (hne : x ≠ []) :
    (discount_cumsum x g).length = x.length ∧
    (discount_cumsum x g).getD (x.length - 1) 0 = x.getD (x.length - 1) 0 ∧
    (∀ t, t + 1 < x.length →
      (discount_cumsum x g).getD t 0 =
        x.getD t 0 + g * (discount_cumsum x g).getD (t + 1) 0) ∧
    discount_cumsum [1, 2, 3] 1 = [6, 5, 3] := by
  refine ⟨discount_cumsum_length x g, ?_, ?_, by norm_num [discount_cumsum]⟩
  · induction x with
    | nil => exact absurd rfl hne
    | cons a rest ih =>
      cases rest with
      | nil => simp [discount_cumsum]
      | cons b rest' =>
        have h' : (b :: rest') ≠ [] := by simp
        have hrec := ih h'
        simp only [discount_cumsum, List.length_cons]
        have hlen : rest'.length + 1 + 1 - 1 = rest'.length + 1 := by omega
        rw [hlen]
        simp only [List.getD_cons_succ]
        simpa using hrec
  · intro t ht
    induction x generalizing t with
    | nil => exact absurd rfl hne
    | cons a rest ih =>
      cases rest with
      | nil => simp at ht
      | cons b rest' =>
        cases t with
        | zero =>
          simp only [discount_cumsum, List.getD_cons_zero, List.getD_cons_succ]
          rw [discount_cumsum_head (b :: rest') g (by simp)]
        | succ t' =>
          have h' : (b :: rest') ≠ [] := by simp
          have ht' : t' + 1 < (b :: rest').length := by simp at ht ⊢; omega
          have := ih h' t' ht'
          simpa [discount_cumsum] using this

/-- Witness for C4 at `x = [1,2,3]`, `gamma = 1`. -/
theorem C4_discount_cumsum_spec_witness :
    ([1, 2, 3] : List ℚ) ≠ [] ∧
    ((discount_cumsum [1, 2, 3] 1).length = ([1, 2, 3] : List ℚ).length ∧
    (discount_cumsum [1, 2, 3] 1).getD (([1, 2, 3] : List ℚ).length - 1) 0 =
      ([1, 2, 3] : List ℚ).getD (([1, 2, 3] : List ℚ).length - 1) 0 ∧
    (∀ t, t + 1 < ([1, 2, 3] : List ℚ).length →
      (discount_cumsum [1, 2, 3] 1).getD t 0 =
        ([1, 2, 3] : List ℚ).getD t 0 + 1 * (discount_cumsum [1, 2, 3] 1).getD (t + 1) 0) ∧
    discount_cumsum [1, 2, 3] 1 = [6, 5, 3]) :=
  ⟨by simp, C4_discount_cumsum_spec [1, 2, 3] 1 (by simp)⟩

/-- Claim C6: the delayed-reward transform sends rewards `[1,2,3]` to
`[0,0,6]`, and return-to-go computed (with gamma 1, as at load time) on the
transformed series is `[6,6,6]`. -/
theorem C6_delayed_transform_spec :
    delayedRewards [1, 2, 3] = [0, 0, 6] ∧
    discount_cumsum (delayedRewards [1, 2, 3]) 1 = [6, 6, 6] := by
  constructor
  · norm_num [delayedRewards, List.replicate]
  · norm_num [delayedRewards, List.replicate, discount_cumsum]

/- ## TrajectorySelector (experiment.py lines 123-139) -/

/-- Embeds `num_timesteps = max(int(pct_traj*num_timesteps), 1)`
(experiment.py line 123); `int()` truncates toward zero, which agrees with
the floor for the nonnegative products that occur here. -/
def budgetOf (pct : ℚ) (total : ℕ) : ℕ := max (Int.toNat ⌊pct * total⌋) 1

/-- Embeds `np.argsort(traj_total_return)` (experiment.py line 124): indices
of the returns list, sorted so the returns are ascending. -/
def argsortAsc (rets : List ℚ) : List ℕ :=
  (List.range rets.length).insertionSort (fun i j => rets.getD i 0 ≤ rets.getD j 0)

/-- Embeds the `while` loop of experiment.py lines 128-131: walk the
remaining lengths (already ordered from second-best return downward),
accepting while the running total stays within the budget; returns the final
`(num_trajectories, timesteps)` pair. -/
def selectAccum (budget : ℕ) : List ℕ → ℕ → ℕ → ℕ × ℕ
  | [], cnt, acc => (cnt, acc)
  | l :: ls, cnt, acc =>
    if acc + l ≤ budget then selectAccum budget ls (cnt + 1) (acc + l) else (cnt, acc)

/-- The `num_trajectories` value after the loop (experiment.py lines
125-131): starts at 1 holding the best trajectory, then accumulates from the
second-best downward. -/
def numSelected (lens : List ℕ) (rets : List ℚ) (budget : ℕ) : ℕ :=
  match (argsortAsc rets).reverse with
  | [] => 0
  | best :: rest =>
    (selectAccum budget (rest.map (fun i => lens.getD i 0)) 1 (lens.getD best 0)).1

/-- Embeds `sorted_return_inds = sorted_return_inds[-num_trajectories:]`
(experiment.py line 133): the selected trajectory indices. -/
def selection (lens : List ℕ) (rets : List ℚ) (budget : ℕ) : List ℕ :=
  (argsortAsc rets).drop ((argsortAsc rets).length - numSelected lens rets budget)

theorem argsortAsc_perm (rets : List ℚ) :
    (argsortAsc rets).Perm (List.range rets.length) :=
  List.perm_insertionSort _ _

theorem argsortAsc_length (rets : List ℚ) :
    (argsortAsc rets).length = rets.length := by
  simpa using (argsortAsc_perm rets).length_eq

theorem argsortAsc_sorted (rets : List ℚ) :
    List.Sorted (fun i j => rets.getD i 0 ≤ rets.getD j 0) (argsortAsc rets) := by
  have h1 : IsTotal ℕ (fun i j => rets.getD i 0 ≤ rets.getD j 0) := ⟨fun _ _ => le_total _ _⟩
  have h2 : IsTrans ℕ (fun i j => rets.getD i 0 ≤ rets.getD j 0) := ⟨fun _ _ _ => le_trans⟩
  exact List.sorted_insertionSort _ _

theorem selectAccum_fst_ge (budget : ℕ) (ls : List ℕ) (cnt acc : ℕ) :
    cnt ≤ (selectAccum budget ls cnt acc).1 := by
  induction ls generalizing cnt acc with
  | nil => simp [selectAccum]
  | cons l ls ih =>
    simp only [selectAccum]
    split
    · exact le_trans (Nat.le_succ cnt) (ih (cnt + 1) (acc + l))
    · exact le_refl cnt

theorem selectAccum_fst_le (budget : ℕ) (ls : List ℕ) (cnt acc : ℕ) :
    (selectAccum budget ls cnt acc).1 ≤ cnt + ls.length := by
  induction ls generalizing cnt acc with
  | nil => simp [selectAccum]
  | cons l ls ih =>
    simp only [selectAccum]
    split
    · have := ih (cnt + 1) (acc + l)
      simp only [List.length_cons]
      omega
    · simp

/-- The loop result: it accepted the first `k` entries exactly, for some `k`
bounded by the list length, and the final total is the initial total plus the
sum of those `k` entries; moreover the final total either equals the initial
one (nothing accepted) or fits in the budget. -/
theorem selectAccum_spec (budget : ℕ) (ls : List ℕ) (cnt acc : ℕ) :
    ∃ k ≤ ls.length,
      selectAccum budget ls cnt acc = (cnt + k, acc + (ls.take k).sum) ∧
      (k = 0 ∨ acc + (ls.take k).sum ≤ budget) := by
  induction ls generalizing cnt acc with
  | nil => exact ⟨0, by simp [selectAccum]⟩
  | cons l ls ih =>
    by_cases h : acc + l ≤ budget
    · obtain ⟨k, hk, heq, hbud⟩ := ih (cnt + 1) (acc + l)
      refine ⟨k + 1, by simpa using Nat.succ_le_succ hk, ?_, ?_⟩
      · simp only [selectAccum, if_pos h, heq, List.take_succ_cons, List.sum_cons]
        rw [Prod.mk.injEq]
        exact ⟨by omega, by omega⟩
      · right
        rcases hbud with h0 | hb
        · subst h0; simpa using h
        · simpa [List.take_succ_cons, add_assoc] using hb
    · exact ⟨0, by simp [selectAccum, if_neg h]⟩

/-- If the whole remaining sum fits in the budget, the loop accepts
everything. -/
theorem selectAccum_all (budget : ℕ) (ls : List ℕ) (cnt acc : ℕ)
    (h : acc + ls.sum ≤ budget) :
    selectAccum budget ls cnt acc = (cnt + ls.length, acc + ls.sum) := by
  induction ls generalizing cnt acc with
  | nil => simp [selectAccum]
  | cons l ls ih =>
    have h1 : acc + l ≤ budget := by simp [List.sum_cons] at h; omega
    have h2 : acc + l + ls.sum ≤ budget := by simp [List.sum_cons] at h; omega
    simp only [selectAccum, if_pos h1, ih (cnt + 1) (acc + l) h2, List.length_cons,
      List.sum_cons]
    rw [Prod.mk.injEq]
    exact ⟨by omega, by omega⟩

theorem map_getD_range (xs : List ℕ) :
    (List.range xs.length).map (fun i => xs.getD i 0) = xs := by
  apply List.ext_getElem
  · simp
  · intro i h1 h2
    simp only [List.getElem_map, List.getElem_range]
    exact List.getD_eq_getElem xs 0 h2

/-- The head of the reversed argsort (the last, hence largest, sorted index)
indexes a maximum of the returns list. -/
theorem argsortAsc_best_max (rets : List ℚ) (best : ℕ) (rest : List ℕ)
    (hrev : (argsortAsc rets).reverse = best :: rest) :
    ∀ j < rets.length, rets.getD j 0 ≤ rets.getD best 0 := by
  intro j hj
  have hsorted := argsortAsc_sorted rets
  have hpw : List.Pairwise (fun i j => rets.getD j 0 ≤ rets.getD i 0)
      ((argsortAsc rets).reverse) := by
    rw [List.pairwise_reverse]
    exact hsorted
  rw [hrev] at hpw
  have hmem : j ∈ (argsortAsc rets).reverse := by
    rw [List.mem_reverse]
    exact ((argsortAsc_perm rets).mem_iff).2 (List.mem_range.2 hj)
  rw [hrev] at hmem
  rcases List.mem_cons.1 hmem with h | h
  · subst h; exact le_refl _
  · exact (List.pairwise_cons.1 hpw).1 j h

/-- Structure of the selector outcome for an arbitrary budget: the selection
is the reversed best-first list truncated after `k` accepted trajectories,
its cumulative length is the best trajectory's length plus the accepted
lengths, acceptance never overruns the budget, and a budget at least the
total forces everything to be accepted. -/
theorem selection_eq (lens : List ℕ) (rets : List ℚ) (budget : ℕ)
    (hn : 0 < rets.length) :
    ∃ best rest k, (argsortAsc rets).reverse = best :: rest ∧ k ≤ rest.length ∧
      selection lens rets budget = (best :: rest.take k).reverse ∧
      (k = 0 ∨ lens.getD best 0 + ((rest.map fun i => lens.getD i 0).take k).sum ≤ budget) ∧
      ((selection lens rets budget).map (fun i => lens.getD i 0)).sum
        = lens.getD best 0 + ((rest.map fun i => lens.getD i 0).take k).sum ∧
      (lens.getD best 0 + (rest.map fun i => lens.getD i 0).sum ≤ budget →
        k = rest.length) := by
  have hlength : (argsortAsc rets).length = rets.length := argsortAsc_length rets
  have hrevne : (argsortAsc rets).reverse ≠ [] := by
    intro h
    rw [List.reverse_eq_nil_iff] at h
    rw [h] at hlength
    simp at hlength
    omega
  obtain ⟨best, rest, hrev⟩ := List.exists_cons_of_ne_nil hrevne
  obtain ⟨k, hk, heq, hbud⟩ :=
    selectAccum_spec budget (rest.map fun i => lens.getD i 0) 1 (lens.getD best 0)
  rw [List.length_map] at hk
  have hnum : numSelected lens rets budget = 1 + k := by
    simp only [numSelected, hrev]
    rw [heq]
  have hrestlen : rest.length + 1 = (argsortAsc rets).length := by
    have := congrArg List.length hrev
    simp at this
    omega
  have hsel : selection lens rets budget = (best :: rest.take k).reverse := by
    rw [selection, hnum]
    have hrt := List.reverse_take (l := (argsortAsc rets).reverse) (n := 1 + k)
    rw [List.reverse_reverse, List.length_reverse] at hrt
    rw [← hrt, hrev]
    have h1k : 1 + k = k + 1 := by omega
    rw [h1k, List.take_succ_cons]
  refine ⟨best, rest, k, hrev, hk, hsel, hbud, ?_, ?_⟩
  · rw [hsel, List.map_reverse, List.sum_reverse, List.map_cons, List.sum_cons,
      List.map_take]
  · intro htot
    have := selectAccum_all budget (rest.map fun i => lens.getD i 0) 1
      (lens.getD best 0) (by simpa using htot)
    rw [this] at heq
    have hfst := congrArg Prod.fst heq
    simp at hfst
    omega

/-- The cumulative length of the whole argsorted index list is the total
timestep count. -/
theorem argsort_total (lens : List ℕ) (rets : List ℚ) (hlen : rets.length = lens.length) :
    ((argsortAsc rets).map (fun i => lens.getD i 0)).sum = lens.sum := by
  have hperm : ((argsortAsc rets).map (fun i => lens.getD i 0)).Perm
      ((List.range rets.length).map (fun i => lens.getD i 0)) :=
    (argsortAsc_perm rets).map _
  rw [hperm.sum_eq, hlen, map_getD_range]

/-- Claim C3: for a nonempty dataset and `pct_traj` in (0,1], the selection
set built with budget `max(floor(pct_traj * total_timesteps), 1)` is
non-empty, contains a maximum-return trajectory, has cumulative timestep
count either at most the budget or equal to the length of the single best
trajectory alone, and `pct_traj = 1` selects every trajectory. -/
theorem C3_selector_spec (lens : List ℕ) (rets : List ℚ) (pct : ℚ)
    (hlen : rets.length = lens.length) (hn : 0 < lens.length)
    (hpct0 : 0 < pct) (hpct1 : pct ≤ 1) :
    selection lens rets (budgetOf pct lens.sum) ≠ [] ∧
    (∃ b ∈ selection lens rets (budgetOf pct lens.sum),
      ∀ j < lens.length, rets.getD j 0 ≤ rets.getD b 0) ∧
    (((selection lens rets (budgetOf pct lens.sum)).map (fun i => lens.getD i 0)).sum
        ≤ budgetOf pct lens.sum ∨
      ∃ b, selection lens rets (budgetOf pct lens.sum) = [b] ∧
        (∀ j < lens.length, rets.getD j 0 ≤ rets.getD b 0) ∧
        ((selection lens rets (budgetOf pct lens.sum)).map (fun i => lens.getD i 0)).sum
          = lens.getD b 0) ∧
    (pct = 1 → ∀ j < lens.length, j ∈ selection lens rets (budgetOf pct lens.sum)) := by
  have hn' : 0 < rets.length := by omega
  obtain ⟨best, rest, k, hrev, hk, hsel, hbud, hsum, hall⟩ :=
    selection_eq lens rets (budgetOf pct lens.sum) hn'
  have hmax : ∀ j < lens.length, rets.getD j 0 ≤ rets.getD best 0 := fun j hj =>
    argsortAsc_best_max rets best rest hrev j (by omega)
  refine ⟨?_, ?_, ?_, ?_⟩
  · rw [hsel]
    simp
  · refine ⟨best, ?_, hmax⟩
    rw [hsel]
    simp
  · rcases hbud with h0 | hle
    · right
      refine ⟨best, ?_, hmax, ?_⟩
      · rw [hsel, h0]
        simp
      · rw [hsum, h0]
        simp
    · left
      rw [hsum]
      exact hle
  · intro hpct j hj
    have hbudget : lens.sum ≤ budgetOf pct lens.sum := by
      rw [hpct, budgetOf]
      have : ((1 : ℚ) * (lens.sum : ℚ)) = (lens.sum : ℚ) := by ring
      rw [this, Int.floor_natCast, Int.toNat_natCast]
      omega
    have htot : lens.getD best 0 + (rest.map fun i => lens.getD i 0).sum ≤
        budgetOf pct lens.sum := by
      have h1 : lens.getD best 0 + (rest.map fun i => lens.getD i 0).sum
          = ((argsortAsc rets).map (fun i => lens.getD i 0)).sum := by
        have h2 := congrArg (fun l => (l.map fun i => lens.getD i 0).sum) hrev
        simp only [List.map_reverse, List.sum_reverse, List.map_cons, List.sum_cons] at h2
        exact h2.symm
      rw [h1, argsort_total lens rets hlen]
      exact hbudget
    have hkfull := hall htot
    have hselall : selection lens rets (budgetOf pct lens.sum)
        = (argsortAsc rets) := by
      rw [hsel, hkfull, List.take_of_length_le (le_refl rest.length), ← hrev,
        List.reverse_reverse]
    rw [hselall]
    exact ((argsortAsc_perm rets).mem_iff).2 (List.mem_range.2 (by omega))

/-- Witness for C3 at `lens = [2,1]`, `rets = [1,2]`, `pct = 1`. -/
theorem C3_selector_spec_witness :
    (([1, 2] : List ℚ).length = ([2, 1] : List ℕ).length ∧ 0 < ([2, 1] : List ℕ).length ∧
      (0 : ℚ) < 1 ∧ (1 : ℚ) ≤ 1) ∧
    (selection [2, 1] [1, 2] (budgetOf 1 ([2, 1] : List ℕ).sum) ≠ [] ∧
    (∃ b ∈ selection [2, 1] [1, 2] (budgetOf 1 ([2, 1] : List ℕ).sum),
      ∀ j < ([2, 1] : List ℕ).length,
        ([1, 2] : List ℚ).getD j 0 ≤ ([1, 2] : List ℚ).getD b 0) ∧
    (((selection [2, 1] [1, 2] (budgetOf 1 ([2, 1] : List ℕ).sum)).map
          (fun i => ([2, 1] : List ℕ).getD i 0)).sum
        ≤ budgetOf 1 ([2, 1] : List ℕ).sum ∨
      ∃ b, selection [2, 1] [1, 2] (budgetOf 1 ([2, 1] : List ℕ).sum) = [b] ∧
        (∀ j < ([2, 1] : List ℕ).length,
          ([1, 2] : List ℚ).getD j 0 ≤ ([1, 2] : List ℚ).getD b 0) ∧
        ((selection [2, 1] [1, 2] (budgetOf 1 ([2, 1] : List ℕ).sum)).map
            (fun i => ([2, 1] : List ℕ).getD i 0)).sum
          = ([2, 1] : List ℕ).getD b 0) ∧
    ((1 : ℚ) = 1 → ∀ j < ([2, 1] : List ℕ).length,
      j ∈ selection [2, 1] [1, 2] (budgetOf 1 ([2, 1] : List ℕ).sum))) :=
  ⟨⟨by simp, by simp, by norm_num, by norm_num⟩,
    C3_selector_spec [2, 1] [1, 2] 1 (by simp) (by simp) (by norm_num) (by norm_num)⟩

/- ## BatchSampler: get_batch (experiment.py lines 141-235) -/

/-- One offline trajectory as stored by the TrajectoryStore: per-step
observation and action vectors, scalar rewards and scalar done flags
(`terminals` is renamed to `dones` at load time, and numpy stores the done
column as floats in the padded batch). -/
structure Traj where
  observations : List (List ℚ)
  actions : List (List ℚ)
  rewards : List ℚ
  dones : List ℚ
deriving DecidableEq

/-- Embeds `batch_lens = [traj['rewards'].shape[0] ...]`
(experiment.py line 168). -/
def trajLen (tr : Traj) : ℕ := tr.rewards.length

/-- The derived `path['rtg']` field (experiment.py line 99):
`discount_cumsum(path['rewards'], gamma=1.)`. -/
def rtgOf (tr : Traj) : List ℚ := discount_cumsum tr.rewards 1

/-- The support of `random.randint(0, batch_len - 1)` (experiment.py line
171): both bounds inclusive, so exactly the integers in `[0, L)`. -/
def startSupport (L : ℕ) : List ℕ := List.range L

/-- Embeds `end_indices = min(start + max_len, batch_len)`
(experiment.py line 175). -/
def endIdx (start maxLen L : ℕ) : ℕ := min (start + maxLen) L

/-- Embeds `seq_lens = end_idx - start_idx` (experiment.py line 177). -/
def seqLen (start maxLen L : ℕ) : ℕ := endIdx start maxLen L - start

/-- Embeds `np.arange(start_idx, end_idx)` (experiment.py line 180): the
absolute trajectory positions a window reads. -/
def tSteps (start maxLen L : ℕ) : List ℕ :=
  (List.range (seqLen start maxLen L)).map (fun kk => start + kk)

/-- Embeds the numpy suffix assignment `arr[-len(vals):] = vals` used on the
pre-allocated batch rows (experiment.py lines 193-198), for
`0 < vals.length ≤ xs.length`. -/
def setSuffix {α : Type} (xs vals : List α) : List α :=
  xs.take (xs.length - vals.length) ++ vals

/-- Embeds `xs[t_steps]` fancy indexing: the window `[start, end)` of a
per-step field. -/
def slice {α : Type} (xs : List α) (start len : ℕ) : List α :=
  (xs.drop start).take len

/-- One state row before normalization: zeros overwritten on the suffix with
the window's observations (experiment.py lines 182, 193). -/
def sRowRaw (stateDim maxLen : ℕ) (tr : Traj) (start : ℕ) : List (List ℚ) :=
  setSuffix (List.replicate maxLen (List.replicate stateDim 0))
    (slice tr.observations start (seqLen start maxLen (trajLen tr)))

/-- Embeds `s -= state_mean; s /= state_std` (experiment.py lines 200-201),
elementwise on one state vector. -/
def normalizeObs (mean std v : List ℚ) : List ℚ :=
  List.zipWith (· / ·) (List.zipWith (· - ·) v mean) std

/-- One normalized state row: the in-place normalization hits every slot of
the pre-allocated array, padding included. -/
def sRow (stateDim maxLen : ℕ) (mean std : List ℚ) (tr : Traj) (start : ℕ) :
    List (List ℚ) :=
  (sRowRaw stateDim maxLen tr start).map (normalizeObs mean std)

/-- One action row: `-10`-sentinel vectors overwritten on the suffix
(experiment.py lines 183, 194). -/
def aRow (actDim maxLen : ℕ) (tr : Traj) (start : ℕ) : List (List ℚ) :=
  setSuffix (List.replicate maxLen (List.replicate actDim (-10)))
    (slice tr.actions start (seqLen start maxLen (trajLen tr)))

/-- One reward row: zeros overwritten on the suffix (experiment.py lines
184, 195). -/
def rRow (maxLen : ℕ) (tr : Traj) (start : ℕ) : List ℚ :=
  setSuffix (List.replicate maxLen 0)
    (slice tr.rewards start (seqLen start maxLen (trajLen tr)))

/-- One done row: `2`-sentinels overwritten on the suffix (experiment.py
lines 185, 196). -/
def dRow (maxLen : ℕ) (tr : Traj) (start : ℕ) : List ℚ :=
  setSuffix (List.replicate maxLen 2)
    (slice tr.dones start (seqLen start maxLen (trajLen tr)))

/-- One return-to-go row: zeros overwritten on the suffix with the scaled
window (experiment.py lines 186, 197). -/
def rtgRow (maxLen : ℕ) (scale : ℚ) (tr : Traj) (start : ℕ) : List ℚ :=
  setSuffix (List.replicate maxLen 0)
    ((slice (rtgOf tr) start (seqLen start maxLen (trajLen tr))).map (· / scale))

/-- One timestep row: `pad_sequences(..., value=-1, padding='pre')` followed
by `+= 1` (experiment.py lines 220-222). -/
def tsRow (maxLen : ℕ) (tr : Traj) (start : ℕ) : List ℤ :=
  (List.replicate (maxLen - seqLen start maxLen (trajLen tr)) (-1 : ℤ) ++
    (tSteps start maxLen (trajLen tr)).map (fun i : ℕ => (i : ℤ))).map (· + 1)

/-- One mask row: zeros (false) overwritten with ones (true) on the suffix
(experiment.py lines 187, 198). -/
def maskRow (maxLen : ℕ) (tr : Traj) (start : ℕ) : List Bool :=
  setSuffix (List.replicate maxLen false)
    (List.replicate (seqLen start maxLen (trajLen tr)) true)

/-- The seven-array tuple returned by `get_batch`. -/
structure Batch where
  s : List (List (List ℚ))
  a : List (List (List ℚ))
  r : List (List (List ℚ))
  d : List (List (List ℚ))
  rtg : List (List (List ℚ))
  timesteps : List (List ℤ)
  mask : List (List Bool)

/-- Embeds `np.expand_dims(arr, axis=-1)` (experiment.py lines 203-205):
each scalar slot becomes a length-1 vector. -/
def expandDims (rows : List (List ℚ)) : List (List (List ℚ)) :=
  rows.map (fun row => row.map (fun x => [x]))

/-- Embeds `get_batch` after the random draws: `draws` lists, per batch row,
the sampled trajectory and the drawn start offset. -/
def getBatch (stateDim actDim : ℕ) (mean std : List ℚ) (scale : ℚ)
    (draws : List (Traj × ℕ)) (maxLen : ℕ) : Batch :=
  { s := draws.map (fun p => sRow stateDim maxLen mean std p.1 p.2)
    a := draws.map (fun p => aRow actDim maxLen p.1 p.2)
    r := expandDims (draws.map (fun p => rRow maxLen p.1 p.2))
    d := expandDims (draws.map (fun p => dRow maxLen p.1 p.2))
    rtg := expandDims (draws.map (fun p => rtgRow maxLen scale p.1 p.2))
    timesteps := draws.map (fun p => tsRow maxLen p.1 p.2)
    mask := draws.map (fun p => maskRow maxLen p.1 p.2) }

theorem getD_replicate_eval {α : Type} (c d : α) (n i : ℕ) :
    (List.replicate n c).getD i d = if i < n then c else d := by
  induction n generalizing i with
  | zero => simp
  | succ m ih =>
    cases i with
    | zero => simp [List.replicate]
    | succ i' => simpa [List.replicate] using ih i'

theorem getD_zipWith {α β γ : Type} (f : α → β → γ) (a : List α) (b : List β)
    (i : ℕ) (d₁ : α) (d₂ : β) (d₃ : γ) (ha : i < a.length) (hb : i < b.length) :
    (List.zipWith f a b).getD i d₃ = f (a.getD i d₁) (b.getD i d₂) := by
  induction a generalizing b i with
  | nil => simp at ha
  | cons x xs ih =>
    cases b with
    | nil => simp at hb
    | cons y ys =>
      cases i with
      | zero => simp
      | succ i' =>
        simp only [List.zipWith_cons_cons, List.getD_cons_succ]
        exact ih ys i' (by simpa using ha) (by simpa using hb)

theorem seqLen_le_maxLen (start maxLen L : ℕ) : seqLen start maxLen L ≤ maxLen := by
  simp only [seqLen, endIdx]
  omega

theorem seqLen_pos (start maxLen L : ℕ) (h1 : start < L) (h2 : 1 ≤ maxLen) :
    0 < seqLen start maxLen L := by
  simp only [seqLen, endIdx]
  omega

theorem slice_seqLen_length {α : Type} (xs : List α) (start maxLen : ℕ) :
    (slice xs start (seqLen start maxLen xs.length)).length
      = seqLen start maxLen xs.length := by
  simp only [slice, List.length_take, List.length_drop, seqLen, endIdx]
  omega

theorem setSuffix_replicate {α : Type} (c : α) (vals : List α) (maxLen : ℕ)
    (h : vals.length ≤ maxLen) :
    setSuffix (List.replicate maxLen c) vals
      = List.replicate (maxLen - vals.length) c ++ vals := by
  simp only [setSuffix, List.length_replicate, List.take_replicate]
  have hmin : (maxLen - vals.length) ⊓ maxLen = maxLen - vals.length := by omega
  rw [hmin]

theorem maskRow_eq (maxLen : ℕ) (tr : Traj) (start : ℕ) :
    maskRow maxLen tr start
      = List.replicate (maxLen - seqLen start maxLen (trajLen tr)) false ++
        List.replicate (seqLen start maxLen (trajLen tr)) true := by
  rw [maskRow, setSuffix_replicate _ _ _ (by simp [seqLen_le_maxLen])]
  simp

theorem maskRow_length (maxLen : ℕ) (tr : Traj) (start : ℕ) :
    (maskRow maxLen tr start).length = maxLen := by
  rw [maskRow_eq]
  have := seqLen_le_maxLen start maxLen (trajLen tr)
  simp
  omega

/-- The mask is false exactly on the left pad, true exactly on the suffix. -/
theorem maskRow_getD (maxLen : ℕ) (tr : Traj) (start j : ℕ) (hj : j < maxLen) :
    (maskRow maxLen tr start).getD j false
      = !decide (j < maxLen - seqLen start maxLen (trajLen tr)) := by
  rw [maskRow_eq]
  have hsl := seqLen_le_maxLen start maxLen (trajLen tr)
  by_cases h : j < maxLen - seqLen start maxLen (trajLen tr)
  · rw [List.getD_append _ _ _ _ (by simpa using h), getD_replicate_eval]
    simp [h]
  · rw [List.getD_append_right _ _ _ _ (by simpa using h), getD_replicate_eval]
    simp only [List.length_replicate]
    have : j - (maxLen - seqLen start maxLen (trajLen tr))
        < seqLen start maxLen (trajLen tr) := by omega
    simp [this, h]

theorem aRow_eq (actDim maxLen : ℕ) (tr : Traj) (start : ℕ)
    (hwf : tr.actions.length = trajLen tr) :
    aRow actDim maxLen tr start
      = List.replicate (maxLen - seqLen start maxLen (trajLen tr))
          (List.replicate actDim (-10)) ++
        slice tr.actions start (seqLen start maxLen (trajLen tr)) := by
  have hlen : (slice tr.actions start (seqLen start maxLen (trajLen tr))).length
      = seqLen start maxLen (trajLen tr) := by
    rw [← hwf] at *
    exact slice_seqLen_length tr.actions start maxLen
  rw [aRow, setSuffix_replicate _ _ _ (by rw [hlen]; exact seqLen_le_maxLen _ _ _), hlen]

theorem dRow_eq (maxLen : ℕ) (tr : Traj) (start : ℕ)
    (hwf : tr.dones.length = trajLen tr) :
    dRow maxLen tr start
      = List.replicate (maxLen - seqLen start maxLen (trajLen tr)) 2 ++
        slice tr.dones start (seqLen start maxLen (trajLen tr)) := by
  have hlen : (slice tr.dones start (seqLen start maxLen (trajLen tr))).length
      = seqLen start maxLen (trajLen tr) := by
    rw [← hwf] at *
    exact slice_seqLen_length tr.dones start maxLen
  rw [dRow, setSuffix_replicate _ _ _ (by rw [hlen]; exact seqLen_le_maxLen _ _ _), hlen]

theorem tsRow_eq (maxLen : ℕ) (tr : Traj) (start : ℕ) :
    tsRow maxLen tr start
      = List.replicate (maxLen - seqLen start maxLen (trajLen tr)) (0 : ℤ) ++
        (List.range (seqLen start maxLen (trajLen tr))).map
          (fun kk : ℕ => (start : ℤ) + kk + 1) := by
  rw [tsRow, List.map_append, List.map_replicate, tSteps, List.map_map, List.map_map]
  congr 1

theorem sRow_eq (stateDim maxLen : ℕ) (mean std : List ℚ) (tr : Traj) (start : ℕ)
    (hwf : tr.observations.length = trajLen tr) :
    sRow stateDim maxLen mean std tr start
      = List.replicate (maxLen - seqLen start maxLen (trajLen tr))
          (normalizeObs mean std (List.replicate stateDim 0)) ++
        (slice tr.observations start (seqLen start maxLen (trajLen tr))).map
          (normalizeObs mean std) := by
  have hlen : (slice tr.observations start (seqLen start maxLen (trajLen tr))).length
      = seqLen start maxLen (trajLen tr) := by
    rw [← hwf] at *
    exact slice_seqLen_length tr.observations start maxLen
  rw [sRow, sRowRaw, setSuffix_replicate _ _ _ (by rw [hlen]; exact seqLen_le_maxLen _ _ _),
    hlen, List.map_append, List.map_replicate]

theorem setSuffix_replicate_length {α : Type} (c : α) (vals : List α) (maxLen : ℕ)
    (h : vals.length ≤ maxLen) :
    (setSuffix (List.replicate maxLen c) vals).length = maxLen := by
  rw [setSuffix_replicate _ _ _ h]
  simp
  omega

theorem getD_map {α β : Type} (f : α → β) (l : List α) (i : ℕ) (d : α) (d' : β)
    (h : i < l.length) :
    (l.map f).getD i d' = f (l.getD i d) := by
  rw [List.getD_eq_getElem _ _ (by simpa using h), List.getElem_map,
    List.getD_eq_getElem _ _ h]

theorem rRow_eq (maxLen : ℕ) (tr : Traj) (start : ℕ) :
    rRow maxLen tr start
      = List.replicate (maxLen - seqLen start maxLen (trajLen tr)) 0 ++
        slice tr.rewards start (seqLen start maxLen (trajLen tr)) := by
  have hlen : (slice tr.rewards start (seqLen start maxLen (trajLen tr))).length
      = seqLen start maxLen (trajLen tr) :=
    slice_seqLen_length tr.rewards start maxLen
  rw [rRow, setSuffix_replicate _ _ _ (by rw [hlen]; exact seqLen_le_maxLen _ _ _), hlen]

theorem rtgRow_eq (maxLen : ℕ) (scale : ℚ) (tr : Traj) (start : ℕ) :
    rtgRow maxLen scale tr start
      = List.replicate (maxLen - seqLen start maxLen (trajLen tr)) 0 ++
        (slice (rtgOf tr) start (seqLen start maxLen (trajLen tr))).map (· / scale) := by
  have hrtg : (rtgOf tr).length = trajLen tr := discount_cumsum_length tr.rewards 1
  have hlen : ((slice (rtgOf tr) start (seqLen start maxLen (trajLen tr))).map
      (· / scale)).length = seqLen start maxLen (trajLen tr) := by
    rw [List.length_map, ← hrtg]
    exact slice_seqLen_length (rtgOf tr) start maxLen
  rw [rtgRow, setSuffix_replicate _ _ _ (by rw [hlen]; exact seqLen_le_maxLen _ _ _), hlen]

theorem sRow_length (stateDim maxLen : ℕ) (mean std : List ℚ) (tr : Traj) (start : ℕ)
    (hwf : tr.observations.length = trajLen tr) :
    (sRow stateDim maxLen mean std tr start).length = maxLen := by
  rw [sRow_eq _ _ _ _ _ _ hwf]
  have := seqLen_le_maxLen start maxLen (trajLen tr)
  have hs : (slice tr.observations start (seqLen start maxLen (trajLen tr))).length
      = seqLen start maxLen (trajLen tr) := by
    rw [← hwf] at *
    exact slice_seqLen_length tr.observations start maxLen
  simp [hs]
  omega

theorem aRow_length (actDim maxLen : ℕ) (tr : Traj) (start : ℕ)
    (hwf : tr.actions.length = trajLen tr) :
    (aRow actDim maxLen tr start).length = maxLen := by
  rw [aRow_eq _ _ _ _ hwf]
  have := seqLen_le_maxLen start maxLen (trajLen tr)
  have hs : (slice tr.actions start (seqLen start maxLen (trajLen tr))).length
      = seqLen start maxLen (trajLen tr) := by
    rw [← hwf] at *
    exact slice_seqLen_length tr.actions start maxLen
  simp [hs]
  omega

theorem dRow_length (maxLen : ℕ) (tr : Traj) (start : ℕ)
    (hwf : tr.dones.length = trajLen tr) :
    (dRow maxLen tr start).length = maxLen := by
  rw [dRow_eq _ _ _ hwf]
  have := seqLen_le_maxLen start maxLen (trajLen tr)
  have hs : (slice tr.dones start (seqLen start maxLen (trajLen tr))).length
      = seqLen start maxLen (trajLen tr) := by
    rw [← hwf] at *
    exact slice_seqLen_length tr.dones start maxLen
  simp [hs]
  omega

theorem rRow_length (maxLen : ℕ) (tr : Traj) (start : ℕ) :
    (rRow maxLen tr start).length = maxLen := by
  rw [rRow_eq]
  have := seqLen_le_maxLen start maxLen (trajLen tr)
  have hs : (slice tr.rewards start (seqLen start maxLen (trajLen tr))).length
      = seqLen start maxLen (trajLen tr) := slice_seqLen_length tr.rewards start maxLen
  simp [hs]
  omega

theorem rtgRow_length (maxLen : ℕ) (scale : ℚ) (tr : Traj) (start : ℕ) :
    (rtgRow maxLen scale tr start).length = maxLen := by
  rw [rtgRow_eq]
  have := seqLen_le_maxLen start maxLen (trajLen tr)
  have hrtg : (rtgOf tr).length = trajLen tr := discount_cumsum_length tr.rewards 1
  have hs := slice_seqLen_length (rtgOf tr) start maxLen
  rw [hrtg] at hs
  simp [hs]
  omega

theorem tsRow_length (maxLen : ℕ) (tr : Traj) (start : ℕ) :
    (tsRow maxLen tr start).length = maxLen := by
  rw [tsRow_eq]
  have := seqLen_le_maxLen start maxLen (trajLen tr)
  simp
  omega

/-- A small three-step trajectory used for concrete evaluations. -/
def exampleTraj : Traj :=
  { observations := [[1], [2], [3]]
    actions := [[4], [5], [6]]
    rewards := [1, 2, 3]
    dones := [0, 0, 1] }

/-- Claim C2 as stated is false: for a trajectory of length 3, `max_len = 2`
and drawn start offset 2 (a legal draw), the mask's true suffix has length
`end − start = 1`, not `min(max_len, trajectory_length) = 2`. -/
theorem C2_mask_suffix_counterexample :
    2 ∈ startSupport (trajLen exampleTraj) ∧
    maskRow 2 exampleTraj 2 ≠
      List.replicate (2 - min 2 (trajLen exampleTraj)) false ++
        List.replicate (min 2 (trajLen exampleTraj)) true := by
  constructor
  · decide
  · decide

/-- Claim C2 (amended): for every mask row of the batch, the mask is false on
a prefix and true on a matching suffix whose length is the window length
`end − start` with `end = min(start + max_len, trajectory_length)` — equal to
`min(max_len, trajectory_length − start)`, not
`min(max_len, trajectory_length)`. -/
theorem C2_mask_suffix_amended (stateDim actDim : ℕ) (mean std : List ℚ)
    (scale : ℚ) (draws : List (Traj × ℕ)) (maxLen : ℕ) (hm : 1 ≤ maxLen)
    (hdraws : ∀ p ∈ draws, p.2 ∈ startSupport (trajLen p.1)) :
    ∀ row ∈ (getBatch stateDim actDim mean std scale draws maxLen).mask,
      ∃ tr start, (tr, start) ∈ draws ∧
        row = List.replicate (maxLen - seqLen start maxLen (trajLen tr)) false ++
          List.replicate (seqLen start maxLen (trajLen tr)) true ∧
        seqLen start maxLen (trajLen tr) = endIdx start maxLen (trajLen tr) - start ∧
        seqLen start maxLen (trajLen tr) = min maxLen (trajLen tr - start) ∧
        0 < seqLen start maxLen (trajLen tr) := by
  intro row hrow
  simp only [getBatch, List.mem_map] at hrow
  obtain ⟨p, hp, hrow⟩ := hrow
  have hstart : p.2 < trajLen p.1 := by
    have := hdraws p hp
    simpa [startSupport, List.mem_range] using this
  refine ⟨p.1, p.2, by simpa using hp, ?_, rfl, ?_, ?_⟩
  · rw [← hrow]
    exact (maskRow_eq maxLen p.1 p.2).symm ▸ (maskRow_eq maxLen p.1 p.2)
  · simp only [seqLen, endIdx]
    omega
  · exact seqLen_pos p.2 maxLen (trajLen p.1) hstart hm

/-- Witness for the amended C2 at one draw of `exampleTraj` with start 2 and
`max_len = 2`. -/
theorem C2_mask_suffix_amended_witness :
    ((1 ≤ 2) ∧ ∀ p ∈ [(exampleTraj, 2)], p.2 ∈ startSupport (trajLen p.1)) ∧
    (∀ row ∈ (getBatch 1 1 [0] [1] 1 [(exampleTraj, 2)] 2).mask,
      ∃ tr start, (tr, start) ∈ [(exampleTraj, 2)] ∧
        row = List.replicate (2 - seqLen start 2 (trajLen tr)) false ++
          List.replicate (seqLen start 2 (trajLen tr)) true ∧
        seqLen start 2 (trajLen tr) = endIdx start 2 (trajLen tr) - start ∧
        seqLen start 2 (trajLen tr) = min 2 (trajLen tr - start) ∧
        0 < seqLen start 2 (trajLen tr)) :=
  ⟨⟨by norm_num, by decide⟩,
    C2_mask_suffix_amended 1 1 [0] [1] 1 [(exampleTraj, 2)] 2 (by norm_num) (by decide)⟩

/-- Claim C9: the support of the drawn start offset is exactly `[0, L)`, the
end offset is `min(start + max_len, L)`, and every position the window reads
lies within the trajectory's bounds. -/
theorem C9_window_bounds (L maxLen start : ℕ) (hs : start ∈ startSupport L) :
    (∀ st, st ∈ startSupport L ↔ st < L) ∧
    endIdx start maxLen L = min (start + maxLen) L ∧
    endIdx start maxLen L ≤ L ∧
    (∀ i ∈ tSteps start maxLen L, start ≤ i ∧ i < L) := by
  have hstart : start < L := by simpa [startSupport, List.mem_range] using hs
  refine ⟨fun st => by simp [startSupport, List.mem_range], rfl, ?_, ?_⟩
  · simp only [endIdx]
    omega
  · intro i hi
    simp only [tSteps, List.mem_map, List.mem_range] at hi
    obtain ⟨kk, hkk, hik⟩ := hi
    subst hik
    simp only [seqLen, endIdx] at hkk
    omega

/-- Witness for C9 at `L = 3`, `max_len = 2`, `start = 2`. -/
theorem C9_window_bounds_witness :
    2 ∈ startSupport 3 ∧
    ((∀ st, st ∈ startSupport 3 ↔ st < 3) ∧
    endIdx 2 2 3 = min (2 + 2) 3 ∧
    endIdx 2 2 3 ≤ 3 ∧
    (∀ i ∈ tSteps 2 2 3, 2 ≤ i ∧ i < 3)) :=
  ⟨by decide, C9_window_bounds 3 2 2 (by decide)⟩

theorem getD_map_row {α β : Type} (f : α → β) (draws : List (Traj × ℕ))
    (g : Traj × ℕ → α) (k : ℕ) (d : β) (hk : k < draws.length) :
    (draws.map (fun p => f (g p))).getD k d = f (g (draws.get ⟨k, hk⟩)) := by
  rw [List.getD_eq_getElem _ _ (by simpa using hk), List.getElem_map]
  rfl

/-- Claim C5: every array of the batch has first dimensions exactly
`(batch_size, max_len)`; at masked-false positions the action slot is the
`−10` sentinel vector, the done slot is the `[2]` sentinel and the timestep
entry is `0`; at masked-true positions the timestep entry is the positive
1-indexed absolute trajectory position of that step. -/
theorem C5_batch_shape_sentinels (stateDim actDim : ℕ) (mean std : List ℚ)
    (scale : ℚ) (draws : List (Traj × ℕ)) (maxLen : ℕ) (b : Batch)
    (hb : b = getBatch stateDim actDim mean std scale draws maxLen)
    (hwf : ∀ p ∈ draws, p.1.observations.length = trajLen p.1 ∧
      p.1.actions.length = trajLen p.1 ∧ p.1.dones.length = trajLen p.1) :
    (b.s.length = draws.length ∧ b.a.length = draws.length ∧
     b.r.length = draws.length ∧ b.d.length = draws.length ∧
     b.rtg.length = draws.length ∧ b.timesteps.length = draws.length ∧
     b.mask.length = draws.length) ∧
    ((∀ row ∈ b.s, row.length = maxLen) ∧ (∀ row ∈ b.a, row.length = maxLen) ∧
     (∀ row ∈ b.r, row.length = maxLen) ∧ (∀ row ∈ b.d, row.length = maxLen) ∧
     (∀ row ∈ b.rtg, row.length = maxLen) ∧
     (∀ row ∈ b.timesteps, row.length = maxLen) ∧
     (∀ row ∈ b.mask, row.length = maxLen)) ∧
    (∀ k, (hk : k < draws.length) → ∀ j, j < maxLen →
      ((b.mask.getD k []).getD j false = false →
        (b.a.getD k []).getD j [] = List.replicate actDim (-10) ∧
        (b.d.getD k []).getD j [] = [2] ∧
        (b.timesteps.getD k []).getD j 0 = 0) ∧
      ((b.mask.getD k []).getD j false = true →
        ∃ kk, kk < seqLen (draws.get ⟨k, hk⟩).2 maxLen (trajLen (draws.get ⟨k, hk⟩).1) ∧
          j = maxLen - seqLen (draws.get ⟨k, hk⟩).2 maxLen (trajLen (draws.get ⟨k, hk⟩).1)
            + kk ∧
          (b.timesteps.getD k []).getD j 0 = ((draws.get ⟨k, hk⟩).2 : ℤ) + kk + 1 ∧
          0 < (b.timesteps.getD k []).getD j 0)) := by
  subst hb
  refine ⟨⟨?_, ?_, ?_, ?_, ?_, ?_, ?_⟩, ⟨?_, ?_, ?_, ?_, ?_, ?_, ?_⟩, ?_⟩
  · simp [getBatch]
  · simp [getBatch]
  · simp [getBatch, expandDims]
  · simp [getBatch, expandDims]
  · simp [getBatch, expandDims]
  · simp [getBatch]
  · simp [getBatch]
  · intro row hrow
    simp only [getBatch, List.mem_map] at hrow
    obtain ⟨p, hp, hrow⟩ := hrow
    rw [← hrow]
    exact sRow_length _ _ _ _ _ _ (hwf p hp).1
  · intro row hrow
    simp only [getBatch, List.mem_map] at hrow
    obtain ⟨p, hp, hrow⟩ := hrow
    rw [← hrow]
    exact aRow_length _ _ _ _ (hwf p hp).2.1
  · intro row hrow
    simp only [getBatch, expandDims, List.map_map, List.mem_map] at hrow
    obtain ⟨p, hp, hrow⟩ := hrow
    rw [← hrow]
    simp only [Function.comp_apply, List.length_map]
    exact rRow_length _ _ _
  · intro row hrow
    simp only [getBatch, expandDims, List.map_map, List.mem_map] at hrow
    obtain ⟨p, hp, hrow⟩ := hrow
    rw [← hrow]
    simp only [Function.comp_apply, List.length_map]
    exact dRow_length _ _ _ (hwf p hp).2.2
  · intro row hrow
    simp only [getBatch, expandDims, List.map_map, List.mem_map] at hrow
    obtain ⟨p, hp, hrow⟩ := hrow
    rw [← hrow]
    simp only [Function.comp_apply, List.length_map]
    exact rtgRow_length _ _ _ _
  · intro row hrow
    simp only [getBatch, List.mem_map] at hrow
    obtain ⟨p, hp, hrow⟩ := hrow
    rw [← hrow]
    exact tsRow_length _ _ _
  · intro row hrow
    simp only [getBatch, List.mem_map] at hrow
    obtain ⟨p, hp, hrow⟩ := hrow
    rw [← hrow]
    exact maskRow_length _ _ _
  · intro k hk j hj
    have hmaskk : (getBatch stateDim actDim mean std scale draws maxLen).mask.getD k []
        = maskRow maxLen (draws.get ⟨k, hk⟩).1 (draws.get ⟨k, hk⟩).2 := by
      simp only [getBatch]
      exact getD_map_row id draws (fun p => maskRow maxLen p.1 p.2) k [] hk
    have hak : (getBatch stateDim actDim mean std scale draws maxLen).a.getD k []
        = aRow actDim maxLen (draws.get ⟨k, hk⟩).1 (draws.get ⟨k, hk⟩).2 := by
      simp only [getBatch]
      exact getD_map_row id draws (fun p => aRow actDim maxLen p.1 p.2) k [] hk
    have hdk : (getBatch stateDim actDim mean std scale draws maxLen).d.getD k []
        = (dRow maxLen (draws.get ⟨k, hk⟩).1 (draws.get ⟨k, hk⟩).2).map (fun x => [x]) := by
      simp only [getBatch, expandDims, List.map_map]
      exact getD_map_row (fun row => row.map (fun x => [x]))
        draws (fun p => dRow maxLen p.1 p.2) k [] hk
    have htk : (getBatch stateDim actDim mean std scale draws maxLen).timesteps.getD k []
        = tsRow maxLen (draws.get ⟨k, hk⟩).1 (draws.get ⟨k, hk⟩).2 := by
      simp only [getBatch]
      exact getD_map_row id draws (fun p => tsRow maxLen p.1 p.2) k [] hk
    set tr := (draws.get ⟨k, hk⟩).1 with htr
    set start := (draws.get ⟨k, hk⟩).2 with hstart
    have hpmem : (tr, start) ∈ draws := by
      rw [htr, hstart]
      exact List.get_mem draws k hk
    have hwfp := hwf (tr, start) hpmem
    have hsl := seqLen_le_maxLen start maxLen (trajLen tr)
    have hmask := maskRow_getD maxLen tr start j hj
    rw [hmaskk, hak, hdk, htk, hmask]
    constructor
    · intro hfalse
      have hjpad : j < maxLen - seqLen start maxLen (trajLen tr) := by
        by_contra hcon
        simp [hcon] at hfalse
      refine ⟨?_, ?_, ?_⟩
      · rw [aRow_eq _ _ _ _ hwfp.2.1,
          List.getD_append _ _ _ _ (by simpa using hjpad), getD_replicate_eval]
        simp [hjpad]
      · have hslice : (slice tr.dones start (seqLen start maxLen (trajLen tr))).length
            = seqLen start maxLen (trajLen tr) := by
          rw [← hwfp.2.2] at *
          exact slice_seqLen_length tr.dones start maxLen
        have hdlen : j < (dRow maxLen tr start).length := by
          rw [dRow_length _ _ _ hwfp.2.2]
          exact hj
        rw [getD_map _ _ _ 0 _ hdlen, dRow_eq _ _ _ hwfp.2.2,
          List.getD_append _ _ _ _ (by simpa using hjpad), getD_replicate_eval]
        simp [hjpad]
      · rw [tsRow_eq, List.getD_append _ _ _ _ (by simpa using hjpad),
          getD_replicate_eval]
        simp [hjpad]
    · intro htrue
      have hjpad : ¬ j < maxLen - seqLen start maxLen (trajLen tr) := by
        by_contra hcon
        simp [hcon] at htrue
      refine ⟨j - (maxLen - seqLen start maxLen (trajLen tr)), by omega, by omega, ?_, ?_⟩
      · rw [tsRow_eq, List.getD_append_right _ _ _ _ (by simpa using hjpad)]
        have hr : j - (List.replicate (maxLen - seqLen start maxLen (trajLen tr))
            (0 : ℤ)).length < (List.range (seqLen start maxLen (trajLen tr))).length := by
          simp
          omega
        rw [getD_map _ _ _ 0 _ (by simpa using hr)]
        simp only [List.length_replicate]
        rw [List.getD_eq_getElem _ _ (by simpa using hr), List.getElem_range]
      · rw [tsRow_eq, List.getD_append_right _ _ _ _ (by simpa using hjpad)]
        have hr : j - (List.replicate (maxLen - seqLen start maxLen (trajLen tr))
            (0 : ℤ)).length < (List.range (seqLen start maxLen (trajLen tr))).length := by
          simp
          omega
        rw [getD_map _ _ _ 0 _ (by simpa using hr)]
        positivity

/-- Witness for C5 at one draw of `exampleTraj`, start 2, `max_len = 2`. -/
theorem C5_batch_shape_sentinels_witness :
    (getBatch 1 1 [0] [1] 1 [(exampleTraj, 2)] 2
        = getBatch 1 1 [0] [1] 1 [(exampleTraj, 2)] 2 ∧
      ∀ p ∈ [(exampleTraj, 2)], p.1.observations.length = trajLen p.1 ∧
        p.1.actions.length = trajLen p.1 ∧ p.1.dones.length = trajLen p.1) ∧
    (((getBatch 1 1 [0] [1] 1 [(exampleTraj, 2)] 2).s.length
        = ([(exampleTraj, 2)] : List (Traj × ℕ)).length ∧
      (getBatch 1 1 [0] [1] 1 [(exampleTraj, 2)] 2).a.length
        = ([(exampleTraj, 2)] : List (Traj × ℕ)).length ∧
      (getBatch 1 1 [0] [1] 1 [(exampleTraj, 2)] 2).r.length
        = ([(exampleTraj, 2)] : List (Traj × ℕ)).length ∧
      (getBatch 1 1 [0] [1] 1 [(exampleTraj, 2)] 2).d.length
        = ([(exampleTraj, 2)] : List (Traj × ℕ)).length ∧
      (getBatch 1 1 [0] [1] 1 [(exampleTraj, 2)] 2).rtg.length
        = ([(exampleTraj, 2)] : List (Traj × ℕ)).length ∧
      (getBatch 1 1 [0] [1] 1 [(exampleTraj, 2)] 2).timesteps.length
        = ([(exampleTraj, 2)] : List (Traj × ℕ)).length ∧
      (getBatch 1 1 [0] [1] 1 [(exampleTraj, 2)] 2).mask.length
        = ([(exampleTraj, 2)] : List (Traj × ℕ)).length) ∧
    ((∀ row ∈ (getBatch 1 1 [0] [1] 1 [(exampleTraj, 2)] 2).s, row.length = 2) ∧
     (∀ row ∈ (getBatch 1 1 [0] [1] 1 [(exampleTraj, 2)] 2).a, row.length = 2) ∧
     (∀ row ∈ (getBatch 1 1 [0] [1] 1 [(exampleTraj, 2)] 2).r, row.length = 2) ∧
     (∀ row ∈ (getBatch 1 1 [0] [1] 1 [(exampleTraj, 2)] 2).d, row.length = 2) ∧
     (∀ row ∈ (getBatch 1 1 [0] [1] 1 [(exampleTraj, 2)] 2).rtg, row.length = 2) ∧
     (∀ row ∈ (getBatch 1 1 [0] [1] 1 [(exampleTraj, 2)] 2).timesteps, row.length = 2) ∧
     (∀ row ∈ (getBatch 1 1 [0] [1] 1 [(exampleTraj, 2)] 2).mask, row.length = 2)) ∧
    (∀ k, (hk : k < ([(exampleTraj, 2)] : List (Traj × ℕ)).length) → ∀ j, j < 2 →
      (((getBatch 1 1 [0] [1] 1 [(exampleTraj, 2)] 2).mask.getD k []).getD j false
          = false →
        ((getBatch 1 1 [0] [1] 1 [(exampleTraj, 2)] 2).a.getD k []).getD j []
          = List.replicate 1 (-10) ∧
        ((getBatch 1 1 [0] [1] 1 [(exampleTraj, 2)] 2).d.getD k []).getD j [] = [2] ∧
        ((getBatch 1 1 [0] [1] 1 [(exampleTraj, 2)] 2).timesteps.getD k []).getD j 0
          = 0) ∧
      (((getBatch 1 1 [0] [1] 1 [(exampleTraj, 2)] 2).mask.getD k []).getD j false
          = true →
        ∃ kk, kk < seqLen (([(exampleTraj, 2)] : List (Traj × ℕ)).get ⟨k, hk⟩).2 2
            (trajLen (([(exampleTraj, 2)] : List (Traj × ℕ)).get ⟨k, hk⟩).1) ∧
          j = 2 - seqLen (([(exampleTraj, 2)] : List (Traj × ℕ)).get ⟨k, hk⟩).2 2
            (trajLen (([(exampleTraj, 2)] : List (Traj × ℕ)).get ⟨k, hk⟩).1) + kk ∧
          ((getBatch 1 1 [0] [1] 1 [(exampleTraj, 2)] 2).timesteps.getD k []).getD j 0
            = ((([(exampleTraj, 2)] : List (Traj × ℕ)).get ⟨k, hk⟩).2 : ℤ) + kk + 1 ∧
          0 < ((getBatch 1 1 [0] [1] 1 [(exampleTraj, 2)] 2).timesteps.getD k []).getD
            j 0))) :=
  ⟨⟨rfl, by decide⟩,
    C5_batch_shape_sentinels 1 1 [0] [1] 1 [(exampleTraj, 2)] 2 _ rfl (by decide)⟩

/-- Claim C10: because `s -= state_mean; s /= state_std` runs in place on the
whole pre-allocated array after the windows are copied, every masked-false
state slot is the normalization image of the zero vector: elementwise it
equals `(0 − state_mean) / state_std`, which is nonzero wherever the state
mean is nonzero. -/
theorem C10_padded_states (stateDim actDim : ℕ) (mean std : List ℚ)
    (scale : ℚ) (draws : List (Traj × ℕ)) (maxLen : ℕ) (b : Batch)
    (hb : b = getBatch stateDim actDim mean std scale draws maxLen)
    (hwf : ∀ p ∈ draws, p.1.observations.length = trajLen p.1) :
    ∀ k, (hk : k < draws.length) → ∀ j, j < maxLen →
      (b.mask.getD k []).getD j false = false →
      (b.s.getD k []).getD j [] = normalizeObs mean std (List.replicate stateDim 0) ∧
      ∀ c, c < stateDim → c < mean.length → c < std.length →
        ((b.s.getD k []).getD j []).getD c 0 = (0 - mean.getD c 0) / std.getD c 0 ∧
        (mean.getD c 0 ≠ 0 → std.getD c 0 ≠ 0 →
          ((b.s.getD k []).getD j []).getD c 0 ≠ 0) := by
  subst hb
  intro k hk j hj hfalse
  have hmaskk : (getBatch stateDim actDim mean std scale draws maxLen).mask.getD k []
      = maskRow maxLen (draws.get ⟨k, hk⟩).1 (draws.get ⟨k, hk⟩).2 := by
    simp only [getBatch]
    exact getD_map_row id draws (fun p => maskRow maxLen p.1 p.2) k [] hk
  have hsk : (getBatch stateDim actDim mean std scale draws maxLen).s.getD k []
      = sRow stateDim maxLen mean std (draws.get ⟨k, hk⟩).1 (draws.get ⟨k, hk⟩).2 := by
    simp only [getBatch]
    exact getD_map_row id draws (fun p => sRow stateDim maxLen mean std p.1 p.2) k [] hk
  set tr := (draws.get ⟨k, hk⟩).1 with htr
  set start := (draws.get ⟨k, hk⟩).2 with hstart
  have hpmem : (tr, start) ∈ draws := by
    rw [htr, hstart]
    exact List.get_mem draws k hk
  have hwfp := hwf (tr, start) hpmem
  have hsl := seqLen_le_maxLen start maxLen (trajLen tr)
  rw [hmaskk, maskRow_getD maxLen tr start j hj] at hfalse
  have hjpad : j < maxLen - seqLen start maxLen (trajLen tr) := by
    by_contra hcon
    simp [hcon] at hfalse
  have hslot : ((getBatch stateDim actDim mean std scale draws maxLen).s.getD k []).getD
      j [] = normalizeObs mean std (List.replicate stateDim 0) := by
    rw [hsk, sRow_eq _ _ _ _ _ _ hwfp,
      List.getD_append _ _ _ _ (by simpa using hjpad), getD_replicate_eval]
    simp [hjpad]
  refine ⟨hslot, ?_⟩
  intro c hcs hcm hcstd
  have hvalue : (normalizeObs mean std (List.replicate stateDim 0)).getD c 0
      = (0 - mean.getD c 0) / std.getD c 0 := by
    rw [normalizeObs,
      getD_zipWith _ _ _ c 0 0 0 (by simp; omega) (by simpa using hcstd),
      getD_zipWith _ _ _ c 0 0 0 (by simpa using hcs) (by simpa using hcm),
      getD_replicate_eval]
    simp [hcs]
  constructor
  · rw [hslot, hvalue]
  · intro hmean hstd
    rw [hslot, hvalue]
    rw [zero_sub]
    exact div_ne_zero (neg_ne_zero.2 hmean) hstd

/-- Witness for C10 at one draw of `exampleTraj`, start 2, `max_len = 2`,
`state_mean = [1]`, `state_std = [2]`. -/
theorem C10_padded_states_witness :
    (getBatch 1 1 [1] [2] 1 [(exampleTraj, 2)] 2
        = getBatch 1 1 [1] [2] 1 [(exampleTraj, 2)] 2 ∧
      ∀ p ∈ [(exampleTraj, 2)], p.1.observations.length = trajLen p.1) ∧
    (∀ k, (hk : k < ([(exampleTraj, 2)] : List (Traj × ℕ)).length) → ∀ j, j < 2 →
      (((getBatch 1 1 [1] [2] 1 [(exampleTraj, 2)] 2).mask.getD k []).getD j false
          = false →
      ((getBatch 1 1 [1] [2] 1 [(exampleTraj, 2)] 2).s.getD k []).getD j []
        = normalizeObs [1] [2] (List.replicate 1 0) ∧
      ∀ c, c < 1 → c < ([1] : List ℚ).length → c < ([2] : List ℚ).length →
        (((getBatch 1 1 [1] [2] 1 [(exampleTraj, 2)] 2).s.getD k []).getD j []).getD c 0
          = (0 - ([1] : List ℚ).getD c 0) / ([2] : List ℚ).getD c 0 ∧
        (([1] : List ℚ).getD c 0 ≠ 0 → ([2] : List ℚ).getD c 0 ≠ 0 →
          (((getBatch 1 1 [1] [2] 1 [(exampleTraj, 2)] 2).s.getD k []).getD j []).getD
            c 0 ≠ 0))) :=
  ⟨⟨rfl, by decide⟩,
    C10_padded_states 1 1 [1] [2] 1 [(exampleTraj, 2)] 2 _ rfl (by decide)⟩

/- ## ParallelEvaluator: eval_ep_parallel (experiment.py lines 238-312) -/

/-- The bookkeeping state of the parallel evaluation loop: the per-episode
done column (`dones[:, -1]`), accumulated returns and lengths, the single
timestep sequence shared by all episodes, and the loop counter. -/
structure EvalState where
  dones : List Bool
  epReturn : List ℚ
  epLength : List ℕ
  timesteps : List ℚ
  t : ℕ
deriving DecidableEq

/-- What the environments hand back on one step: one realized reward and one
terminal signal (`ts.step_type == StepType.LAST`) per episode. -/
structure StepResult where
  rewards : List ℚ
  terms : List Bool
deriving DecidableEq

/-- The state after the Init phase (experiment.py lines 241, 251, 261-262):
all done flags false, returns and lengths zero, timestep sequence `[1]`. -/
def initEvalState (numEps : ℕ) : EvalState :=
  { dones := List.replicate numEps false
    epReturn := List.replicate numEps 0
    epLength := List.replicate numEps 0
    timesteps := [1]
    t := 0 }

/-- One iteration of the `for t in range(max_ep_len)` body (experiment.py
lines 284-300): sticky-OR the done flags, append `t+2` to the shared
timestep sequence, and accumulate `tf.where(new_dones, 0, ...)` into the
per-episode return and length. -/
def evalStep (s : EvalState) (res : StepResult) : EvalState :=
  let newDones := List.zipWith (fun d nd => d || nd) s.dones res.terms
  { dones := newDones
    epReturn := List.zipWith (fun p dr => if dr.1 then p + 0 else p + dr.2)
      s.epReturn (newDones.zip res.rewards)
    epLength := List.zipWith (fun p d => if d then p + 0 else p + 1)
      s.epLength newDones
    timesteps := s.timesteps ++ [((s.t + 2 : ℕ) : ℚ)]
    t := s.t + 1 }

/-- `done = tf.reduce_all(tf.reduce_any(dones, axis=-1))` (experiment.py
line 286) for the single-column done matrix. -/
def allDone (s : EvalState) : Bool := s.dones.all id

/-- The step loop with its early exit (experiment.py lines 263, 302-303):
the environment outcomes for the up-to-`max_ep_len` iterations are the input
list, and the loop breaks right after the step on which every episode is
done. -/
def runEval (s : EvalState) : List StepResult → EvalState
  | [] => s
  | res :: rest =>
    let s2 := evalStep s res
    if allDone s2 then s2 else runEval s2 rest

/-- The state after the first `k` iterations, ignoring the early exit. -/
def runUpTo (s : EvalState) (l : List StepResult) (k : ℕ) : EvalState :=
  (l.take k).foldl evalStep s

/-- The spec shape of the shared timestep sequence: `[1, 2, ..., k]`. -/
def tsSeq (k : ℕ) : List ℚ := (List.range k).map (fun i : ℕ => ((i + 1 : ℕ) : ℚ))

theorem evalStep_dones_length (s : EvalState) (res : StepResult)
    (h : res.terms.length = s.dones.length) :
    (evalStep s res).dones.length = s.dones.length := by
  simp [evalStep, h]

theorem evalStep_sticky (s : EvalState) (res : StepResult) (i : ℕ)
    (h : res.terms.length = s.dones.length)
    (hd : s.dones.getD i false = true) :
    (evalStep s res).dones.getD i false = true := by
  have hi : i < s.dones.length := by
    by_contra hcon
    rw [List.getD_eq_getElem?_getD, List.getElem?_eq_none (by omega)] at hd
    simp at hd
  simp only [evalStep]
  rw [getD_zipWith _ _ _ i false false false hi (by omega), hd]
  simp

theorem foldl_dones_length (l : List StepResult) (s : EvalState)
    (hwf : ∀ r ∈ l, r.terms.length = s.dones.length) :
    ((l.foldl evalStep s).dones.length = s.dones.length) := by
  induction l generalizing s with
  | nil => rfl
  | cons r rest ih =>
    have h1 : r.terms.length = s.dones.length := hwf r (by simp)
    have h2 := evalStep_dones_length s r h1
    rw [List.foldl_cons, ih (evalStep s r) (fun r' hr' => by
      rw [h2]; exact hwf r' (by simp [hr']))]
    exact h2

theorem foldl_sticky (l : List StepResult) (s : EvalState) (i : ℕ)
    (hwf : ∀ r ∈ l, r.terms.length = s.dones.length)
    (hd : s.dones.getD i false = true) :
    (l.foldl evalStep s).dones.getD i false = true := by
  induction l generalizing s with
  | nil => exact hd
  | cons r rest ih =>
    have h1 : r.terms.length = s.dones.length := hwf r (by simp)
    have h2 := evalStep_dones_length s r h1
    rw [List.foldl_cons]
    exact ih (evalStep s r) (fun r' hr' => by
        rw [h2]; exact hwf r' (by simp [hr']))
      (evalStep_sticky s r i h1 hd)

theorem runUpTo_t (s : EvalState) (l : List StepResult) (k : ℕ)
    (hk : k ≤ l.length) :
    (runUpTo s l k).t = s.t + k := by
  induction l generalizing s k with
  | nil => simp at hk; simp [hk, runUpTo]
  | cons r rest ih =>
    cases k with
    | zero => simp [runUpTo]
    | succ k' =>
      have : runUpTo s (r :: rest) (k' + 1) = runUpTo (evalStep s r) rest k' := by
        simp [runUpTo]
      rw [this, ih (evalStep s r) k' (by simpa using hk)]
      simp [evalStep]
      omega

theorem runUpTo_cons (s : EvalState) (r : StepResult) (rest : List StepResult)
    (k : ℕ) :
    runUpTo s (r :: rest) (k + 1) = runUpTo (evalStep s r) rest k := by
  simp [runUpTo]

/-- The loop exits exactly at the first step after which every episode is
done, or after exhausting the input. -/
theorem runEval_exit (s : EvalState) (l : List StepResult) :
    ∃ T, T ≤ l.length ∧ runEval s l = runUpTo s l T ∧
      (∀ k, 0 < k → k < T → allDone (runUpTo s l k) = false) ∧
      (T < l.length → allDone (runUpTo s l T) = true) := by
  induction l generalizing s with
  | nil => exact ⟨0, by simp [runEval, runUpTo]⟩
  | cons r rest ih =>
    by_cases hdone : allDone (evalStep s r) = true
    · refine ⟨1, by simp, ?_, ?_, ?_⟩
      · simp [runEval, hdone, runUpTo]
      · intro k hk1 hk2
        omega
      · intro _
        simpa [runUpTo] using hdone
    · obtain ⟨T, hT, heq, hmid, hlast⟩ := ih (evalStep s r)
      refine ⟨T + 1, by simpa using Nat.succ_le_succ hT, ?_, ?_, ?_⟩
      · rw [runUpTo_cons]
        simp only [runEval, Bool.not_eq_true] at hdone ⊢
        rw [hdone]
        exact heq
      · intro k hk1 hk2
        cases k with
        | zero => omega
        | succ k' =>
          rw [runUpTo_cons]
          cases Nat.eq_zero_or_pos k' with
          | inl h0 =>
            subst h0
            simpa [runUpTo] using hdone
          | inr hpos => exact hmid k' hpos (by omega)
      · intro hTlen
        rw [runUpTo_cons]
        exact hlast (by simpa using hTlen)

theorem runUpTo_sticky (s : EvalState) (l : List StepResult)
    (hwf : ∀ r ∈ l, r.terms.length = s.dones.length)
    (i k₁ k₂ : ℕ) (hk : k₁ ≤ k₂)
    (hd : (runUpTo s l k₁).dones.getD i false = true) :
    (runUpTo s l k₂).dones.getD i false = true := by
  have hsub1 : ∀ r ∈ l.take k₁, r.terms.length = s.dones.length :=
    fun r hr => hwf r (List.take_subset _ _ hr)
  have hlen1 : ((l.take k₁).foldl evalStep s).dones.length = s.dones.length :=
    foldl_dones_length _ _ hsub1
  have hsplit : l.take k₂ = l.take k₁ ++ (l.drop k₁).take (k₂ - k₁) := by
    rw [← List.take_add]
    congr 1
    omega
  rw [runUpTo, hsplit, List.foldl_append]
  exact foldl_sticky _ _ i
    (fun r hr => by
      rw [hlen1]
      exact hwf r (List.drop_subset _ _ (List.take_subset _ _ hr)))
    hd

/-- Claim C7: each episode's done flag is sticky across the whole run — true
at some point of the loop implies true at every later point — and the loop
stops at the first step after which every episode's flag is true, running at
most `max_ep_len` (the input length) steps otherwise. -/
theorem C7_sticky_done_early_exit (s : EvalState) (l : List StepResult)
    (hwf : ∀ r ∈ l, r.terms.length = s.dones.length) :
    (∀ i k₁ k₂, k₁ ≤ k₂ →
      (runUpTo s l k₁).dones.getD i false = true →
      (runUpTo s l k₂).dones.getD i false = true) ∧
    ∃ T, T ≤ l.length ∧ runEval s l = runUpTo s l T ∧
      (runEval s l).t = s.t + T ∧
      (∀ k, 0 < k → k < T → allDone (runUpTo s l k) = false) ∧
      (T < l.length → allDone (runUpTo s l T) = true) := by
  refine ⟨fun i k₁ k₂ hk hd => runUpTo_sticky s l hwf i k₁ k₂ hk hd, ?_⟩
  obtain ⟨T, hT, heq, hmid, hlast⟩ := runEval_exit s l
  exact ⟨T, hT, heq, by rw [heq, runUpTo_t s l T hT], hmid, hlast⟩

/-- Witness for C7: one episode, terminal signalled on the first of two
steps. -/
theorem C7_sticky_done_early_exit_witness :
    (∀ r ∈ [StepResult.mk [1] [true], StepResult.mk [1] [false]],
      r.terms.length = (initEvalState 1).dones.length) ∧
    ((∀ i k₁ k₂, k₁ ≤ k₂ →
      (runUpTo (initEvalState 1)
        [StepResult.mk [1] [true], StepResult.mk [1] [false]] k₁).dones.getD i false
          = true →
      (runUpTo (initEvalState 1)
        [StepResult.mk [1] [true], StepResult.mk [1] [false]] k₂).dones.getD i false
          = true) ∧
    ∃ T, T ≤ ([StepResult.mk [1] [true], StepResult.mk [1] [false]] :
        List StepResult).length ∧
      runEval (initEvalState 1) [StepResult.mk [1] [true], StepResult.mk [1] [false]]
        = runUpTo (initEvalState 1)
            [StepResult.mk [1] [true], StepResult.mk [1] [false]] T ∧
      (runEval (initEvalState 1)
        [StepResult.mk [1] [true], StepResult.mk [1] [false]]).t
          = (initEvalState 1).t + T ∧
      (∀ k, 0 < k → k < T →
        allDone (runUpTo (initEvalState 1)
          [StepResult.mk [1] [true], StepResult.mk [1] [false]] k) = false) ∧
      (T < ([StepResult.mk [1] [true], StepResult.mk [1] [false]] :
          List StepResult).length →
        allDone (runUpTo (initEvalState 1)
          [StepResult.mk [1] [true], StepResult.mk [1] [false]] T) = true)) :=
  ⟨by decide,
    C7_sticky_done_early_exit (initEvalState 1)
      [StepResult.mk [1] [true], StepResult.mk [1] [false]] (by decide)⟩

theorem tsSeq_succ (k : ℕ) : tsSeq (k + 1) = tsSeq k ++ [((k + 1 : ℕ) : ℚ)] := by
  simp [tsSeq, List.range_succ]

theorem runEval_timesteps_inv (s : EvalState) (l : List StepResult)
    (h : s.timesteps = tsSeq (s.t + 1)) :
    (runEval s l).timesteps = tsSeq ((runEval s l).t + 1) := by
  induction l generalizing s with
  | nil => simpa [runEval] using h
  | cons r rest ih =>
    have hstep : (evalStep s r).timesteps = tsSeq ((evalStep s r).t + 1) := by
      show s.timesteps ++ [((s.t + 2 : ℕ) : ℚ)] = tsSeq (s.t + 1 + 1)
      rw [tsSeq_succ (s.t + 1), h]
    simp only [runEval]
    split
    · exact hstep
    · exact ih _ hstep

/-- Claim C8: the timestep sequence fed to the model is one list shared by
all episodes: it starts as `[1]`, each loop iteration appends the next
absolute index `t + 2`, and after `t` completed iterations it equals
`[1, 2, ..., t + 1]`. -/
theorem C8_shared_timesteps (n : ℕ) (l : List StepResult) :
    (initEvalState n).timesteps = [(1 : ℚ)] ∧
    (∀ s res, (evalStep s res).timesteps = s.timesteps ++ [((s.t + 2 : ℕ) : ℚ)]) ∧
    (runEval (initEvalState n) l).timesteps
      = tsSeq ((runEval (initEvalState n) l).t + 1) := by
  refine ⟨rfl, fun s res => rfl, ?_⟩
  exact runEval_timesteps_inv (initEvalState n) l
    (by norm_num [initEvalState, tsSeq, List.range_succ])

/-- The environment outcomes of the C1 scenario: one episode, reward 1 every
step, terminal signalled on the 3rd step, `max_ep_len = 5`. -/
def C1steps : List StepResult :=
  [⟨[1], [false]⟩, ⟨[1], [false]⟩, ⟨[1], [true]⟩, ⟨[1], [false]⟩, ⟨[1], [false]⟩]

/-- Claim C1 fails on the code: with a single episode whose environment
signals terminal on the 3rd step (reward 1 each step, `max_ep_len = 5`), the
loop stops after 3 iterations but the accumulated length is 2, not 3, and
the accumulated return is 2, missing the terminal step's reward — because
lines 299-300 gate the accumulation on the already-updated done flags. -/
theorem C1_terminal_step_dropped :
    (runEval (initEvalState 1) C1steps).t = 3 ∧
    (runEval (initEvalState 1) C1steps).epLength = [2] ∧
    (runEval (initEvalState 1) C1steps).epLength ≠ [3] ∧
    (runEval (initEvalState 1) C1steps).epReturn = [2] := by
  refine ⟨?_, ?_, ?_, ?_⟩ <;>
    norm_num [runEval, evalStep, initEvalState, allDone, C1steps]

end DecTransform
